import Mathlib

/-!
Tatoeba word-to-sentence-ids lookup table (main.go).

A shallow embedding of `main.go`.  Channels are modelled by the finite sequence of
values that travels over them, taken in arrival order; a `panic` is modelled by the
error side of `Except`.  The MeCab tagger is an external collaborator and is a
parameter: a function from a text to the chain of nodes that `ParseToNode` returns
(the head of the list is the node returned, `Next()` is the tail, the empty list is
the null node).  The Go standard library functions used by the program
(`strings.SplitN`, `strings.Split`, `strconv.Atoi`, `bufio.Scanner`) are modelled
from their documented behaviour, for valid UTF-8 text and a 64-bit `int`.
-/

namespace Tatoeba

/-! ## Data model -/

/-- Fatal termination of the process. -/
inductive Abort where
  /-- An explicit `panic(fmt.Sprintf(...))` carrying its diagnostic. -/
  | panic (msg : String)
  /-- The run-time panic of an index expression out of range. -/
  | indexOutOfRange
  /-- A method call on the null node. -/
  | nilDereference
  /-- The scanner error `bufio.ErrTooLong`, raised by `panic(err)` in `scan_lines`. -/
  | scanTooLong
  deriving DecidableEq, Repr

/-- The struct `Sentence` of main.go (lines 21-24). -/
structure Sentence where
  id : Int
  text : List String
  deriving DecidableEq, Repr

/-- The struct `Line` of main.go (lines 26-29). -/
structure Line where
  number : Int
  content : String
  deriving DecidableEq, Repr

/-- The node status of MeCab, as exported by go-mecab. -/
inductive NodeStat where
  | NormalNode
  | UnknownNode
  | BOSNode
  | EOSNode
  | EONNode
  deriving DecidableEq, Repr

/-- What the program reads of a MeCab node: `Stat()`, `Surface()` and `Feature()`. -/
structure Node where
  stat : NodeStat
  surface : String
  feature : String
  deriving DecidableEq, Repr

/-- The Go map `map[string][]int`, as an association list with unique keys. -/
abbrev LookupTable := List (String × List Int)

/-! ## Standard library -/

/-- The function `strings.Index` for a one-character separator, returning the text
before the first separator and the text after it. -/
def cut (sep : Char) : List Char → Option (List Char × List Char)
  | [] => none
  | c :: cs =>
    if c = sep then some ([], cs)
    else
      match cut sep cs with
      | none => none
      | some (a, b) => some (c :: a, b)

/-- The loop of `strings.genSplit`: at most `k` cuts, the last piece is the unsplit
remainder. -/
def genSplit (sep : Char) : Nat → List Char → List (List Char)
  | 0, s => [s]
  | k + 1, s =>
    match cut sep s with
    | none => [s]
    | some (a, b) => a :: genSplit sep k b

/-- The function `strings.SplitN(s, sep, n)` for `n ≥ 0` and a one-character `sep`. -/
def SplitN (s : String) (sep : Char) (n : Nat) : List String :=
  if n = 0 then [] else (genSplit sep (n - 1) s.data).map String.mk

/-- The function `strings.Split(s, sep)`: `SplitN` with a count of
`strings.Count(s, sep) + 1`. -/
def Split (s : String) (sep : Char) : List String :=
  SplitN s sep (s.data.count sep + 1)

/-- The value of a decimal digit. -/
def digitVal (c : Char) : Option Nat :=
  if 48 ≤ c.toNat ∧ c.toNat ≤ 57 then some (c.toNat - 48) else none

/-- The digits of an unsigned decimal numeral, most significant first. -/
def parseDigits : List Char → Nat → Option Nat
  | [], n => some n
  | c :: cs, n =>
    match digitVal c with
    | none => none
    | some d => parseDigits cs (n * 10 + d)

/-- The function `strconv.Atoi` on a 64-bit platform: an optional sign, then one or
more decimal digits, the value within the range of `int`; `none` is a non-nil error. -/
def Atoi (s : String) : Option Int :=
  match s.data with
  | [] => none
  | c :: rest =>
    let neg := decide (c = '-')
    let ds := if c = '-' ∨ c = '+' then rest else c :: rest
    if ds = [] then none
    else
      match parseDigits ds 0 with
      | none => none
      | some n =>
        if neg then (if n ≤ 2 ^ 63 then some (-(n : Int)) else none)
        else (if n < 2 ^ 63 then some (n : Int) else none)

/-- The function `dropCR` of bufio: one trailing carriage return is removed. -/
def dropCR (l : List Char) : List Char :=
  if l.getLast? = some '\r' then l.dropLast else l

/-- The tokens of `bufio.ScanLines` before `dropCR`: the data is cut at every newline,
and a final piece without a newline is a token when it is not empty. -/
def scanRaw : List Char → List Char → List (List Char)
  | [], cur => if cur = [] then [] else [cur]
  | c :: cs, cur => if c = '\n' then cur :: scanRaw cs [] else scanRaw cs (cur ++ [c])

/-- The successive `scanner.Text()` values and the final `scanner.Err()`: a line of
`bufio.MaxScanTokenSize` bytes or more stops the scan with `ErrTooLong`. -/
def scanChecked : List (List Char) → List String × Option Abort
  | [] => ([], none)
  | t :: ts =>
    if 65536 ≤ (String.mk t).utf8ByteSize then ([], some Abort.scanTooLong)
    else (String.mk (dropCR t) :: (scanChecked ts).1, (scanChecked ts).2)

/-- The scanner over the content of the input file. -/
def Scanner (file : String) : List String × Option Abort :=
  scanChecked (scanRaw file.data [])

/-! ## The program -/

/-- The loop of `scan_lines` (lines 40-43): `line_number` starts at the given value and
is incremented after every line sent. -/
def number_lines : Int → List String → List Line
  | _, [] => []
  | n, t :: ts => ⟨n, t⟩ :: number_lines (n + 1) ts

/-- The lines that `scan_lines` sends on the channel, for the successive scanner
texts. -/
def scan_lines (texts : List String) : List Line :=
  number_lines 1 texts

/-- The token loop of `process_lines` (lines 85-95).  The first argument is the chain
starting at `node`; the second is `words`. -/
def wordsLoop : List Node → List String → Except Abort (List String)
  | [], _ => .error .nilDereference
  | node :: tail, words =>
    match tail with
    | [] => .error .nilDereference
    | next :: _ =>
      if next.stat = NodeStat.EOSNode then .ok words
      else if node.stat = NodeStat.BOSNode ∨ node.stat = NodeStat.EOSNode then
        wordsLoop tail words
      else
        match (Split node.feature ',')[6]? with
        | none => .error .indexOutOfRange
        | some reg_form =>
          wordsLoop tail (words ++ [if reg_form = "*" then node.surface else reg_form])

/-- The diagnostic of line 66. -/
def invalidData (number : Int) (content : String) : String :=
  "invalid data on line " ++ toString number ++ ": " ++ content

/-- The diagnostic of line 79. -/
def invalidId (number : Int) (field : String) : String :=
  "invalid id on line " ++ toString number ++ ": \x27" ++ field ++ "\x27"

/-- The body of the `for line := range lines` loop of `process_lines` (lines 64-97):
`none` is the `continue` of line 70, `some s` is the sentence sent on line 97. -/
def process_line (use_line_numbers : Bool) (tagger : String → List Node) (line : Line) :
    Except Abort (Option Sentence) :=
  match SplitN line.content '\t' 3 with
  | [p0, p1, p2] =>
    if p1 ≠ "jpn" then .ok none
    else
      let idr : Except Abort Int :=
        if use_line_numbers then .ok (line.number - 1)
        else
          match Atoi p0 with
          | some v => .ok v
          | none => .error (.panic (invalidId line.number p0))
      match idr with
      | .error e => .error e
      | .ok id =>
        match wordsLoop (tagger p2) [] with
        | .error e => .error e
        | .ok words => .ok (some ⟨id, words⟩)
  | _ => .error (.panic (invalidData line.number line.content))

/-- One worker running `process_lines` over the lines it receives, in order: the
sentences it sends, or the panic that ends the process. -/
def process_lines (use_line_numbers : Bool) (tagger : String → List Node) :
    List Line → Except Abort (List Sentence)
  | [] => .ok []
  | line :: rest =>
    match process_line use_line_numbers tagger line with
    | .error e => .error e
    | .ok r =>
      match process_lines use_line_numbers tagger rest with
      | .error e => .error e
      | .ok ss =>
        match r with
        | none => .ok ss
        | some s => .ok (s :: ss)

/-- The read `lookup_table[word]` with its presence flag. -/
def LookupTable.get : LookupTable → String → Option (List Int)
  | [], _ => none
  | (k, v) :: rest, w => if k = w then some v else LookupTable.get rest w

/-- The assignment `lookup_table[word] = v`. -/
def LookupTable.set : LookupTable → String → List Int → LookupTable
  | [], w, v => [(w, v)]
  | (k, x) :: rest, w, v =>
    if k = w then (k, v) :: rest else (k, x) :: LookupTable.set rest w v

/-- The keys of the map. -/
def LookupTable.keys (t : LookupTable) : List String :=
  t.map Prod.fst

/-- The body of the inner loop of `create_lookup_table` (lines 106-109). -/
def addWord (id : Int) (t : LookupTable) (word : String) : LookupTable :=
  let t1 := if (t.get word).isNone then t.set word [] else t
  t1.set word ((t1.get word).getD [] ++ [id])

/-- The function `create_lookup_table` (lines 101-114) over the sentences received,
in arrival order: the map it sends on `result`. -/
def create_lookup_table (sentences : List Sentence) : LookupTable :=
  sentences.foldl (fun t sentence => sentence.text.foldl (addWord sentence.id) t) []

/-- The pipeline run with the lines handled one after the other in file order, over
the successive scanner texts: the index delivered, or the panic. -/
def pipeline (use_line_numbers : Bool) (tagger : String → List Node)
    (texts : List String) : Except Abort LookupTable :=
  match process_lines use_line_numbers tagger (scan_lines texts) with
  | .error e => .error e
  | .ok ss => .ok (create_lookup_table ss)

/-- The pipeline over the content of the input file. -/
def run (use_line_numbers : Bool) (tagger : String → List Node)
    (file : String) : Except Abort LookupTable :=
  match process_lines use_line_numbers tagger (scan_lines (Scanner file).1) with
  | .error e => .error e
  | .ok ss =>
    match (Scanner file).2 with
    | some e => .error e
    | none => .ok (create_lookup_table ss)

/-- The index delivered, when there is one. -/
def delivered (r : Except Abort LookupTable) : Option LookupTable :=
  match r with
  | .error _ => none
  | .ok t => some t

/-! ## Example taggers -/

/-- The usual feature string of a word without a lemma. -/
def plainFeature : String := "名詞,一般,*,*,*,*,*"

/-- A tagger that cuts a text into one-character tokens without a lemma. -/
def charTagger (text : String) : List Node :=
  [⟨NodeStat.BOSNode, "", "BOS/EOS,*,*,*,*,*,*,*,*"⟩]
    ++ text.data.map (fun c => ⟨NodeStat.NormalNode, String.mk [c], plainFeature⟩)
    ++ [⟨NodeStat.EOSNode, "", "BOS/EOS,*,*,*,*,*,*,*,*"⟩]

/-- The chain of the IPA dictionary for the text 猫が好き. -/
def nekoChain : List Node :=
  [⟨NodeStat.BOSNode, "", "BOS/EOS,*,*,*,*,*,*,*,*"⟩,
   ⟨NodeStat.NormalNode, "猫", "名詞,一般,*,*,*,*,猫,ネコ,ネコ"⟩,
   ⟨NodeStat.NormalNode, "が", "助詞,格助詞,一般,*,*,*,が,ガ,ガ"⟩,
   ⟨NodeStat.NormalNode, "好き", "名詞,形容動詞語幹,*,*,*,*,好き,スキ,スキ"⟩,
   ⟨NodeStat.EOSNode, "", "BOS/EOS,*,*,*,*,*,*,*,*"⟩]

/-- A tagger that knows the text 猫が好き and cuts every other text into characters. -/
def nekoTagger (text : String) : List Node :=
  if text = "猫が好き" then nekoChain else charTagger text

/-! ## The lookup table -/

/-- The ids that the sentences contribute to a word: for every sentence in arrival
order, its id once per occurrence of the word in its text. -/
def occurrences (w : String) (sentences : List Sentence) : List Int :=
  sentences.flatMap (fun s => List.replicate (s.text.count w) s.id)

theorem get_set (t : LookupTable) (w w2 : String) (v : List Int) :
    (t.set w v).get w2 = if w = w2 then some v else t.get w2 := by
  induction t with
  | nil =>
    by_cases h : w = w2 <;> simp [LookupTable.set, LookupTable.get, h]
  | cons p rest ih =>
    obtain ⟨k, x⟩ := p
    by_cases hk : k = w
    · subst hk
      by_cases h : k = w2 <;> simp [LookupTable.set, LookupTable.get, h]
    · by_cases hk2 : k = w2
      · subst hk2
        have hne : ¬ w = k := fun e => hk e.symm
        simp [LookupTable.set, LookupTable.get, hk, hne]
      · simp [LookupTable.set, LookupTable.get, hk, hk2, ih]

theorem keys_set (t : LookupTable) (w w2 : String) (v : List Int) :
    w2 ∈ (t.set w v).keys ↔ w2 = w ∨ w2 ∈ t.keys := by
  induction t with
  | nil => simp [LookupTable.set, LookupTable.keys]
  | cons p rest ih =>
    obtain ⟨k, x⟩ := p
    simp only [LookupTable.keys] at ih
    by_cases hk : k = w
    · simp only [LookupTable.set, LookupTable.keys, hk, if_true, List.map_cons, List.mem_cons]
      tauto
    · simp only [LookupTable.set, LookupTable.keys, hk, if_false, List.map_cons, List.mem_cons, ih]
      tauto

theorem mem_keys_iff (t : LookupTable) (w : String) :
    w ∈ t.keys ↔ t.get w ≠ none := by
  induction t with
  | nil => simp [LookupTable.keys, LookupTable.get]
  | cons p rest ih =>
    obtain ⟨k, x⟩ := p
    simp only [LookupTable.keys] at ih
    by_cases hk : k = w
    · simp [LookupTable.keys, LookupTable.get, hk]
    · have hk2 : ¬ w = k := fun h => hk h.symm
      simp [LookupTable.keys, LookupTable.get, hk, hk2, ih]

theorem keys_set_nodup (t : LookupTable) (w : String) (v : List Int)
    (h : t.keys.Nodup) : (t.set w v).keys.Nodup := by
  induction t with
  | nil => simp [LookupTable.set, LookupTable.keys]
  | cons p rest ih =>
    obtain ⟨k, x⟩ := p
    simp only [LookupTable.keys, List.map_cons, List.nodup_cons] at h ih
    by_cases hk : k = w
    · simp only [LookupTable.set, LookupTable.keys, hk, if_true, List.map_cons, List.nodup_cons]
      rw [← hk]; exact h
    · simp only [LookupTable.set, hk, if_false, LookupTable.keys, List.map_cons,
        List.nodup_cons]
      refine ⟨?_, ih h.2⟩
      intro hmem
      have := (keys_set rest w k v).1 hmem
      rcases this with h1 | h1
      · exact hk h1
      · exact h.1 h1

theorem get_addWord (id : Int) (t : LookupTable) (w w2 : String) :
    (addWord id t w).get w2 =
      if w = w2 then some ((t.get w).getD [] ++ [id]) else t.get w2 := by
  unfold addWord
  cases hg : t.get w with
  | none =>
    by_cases h : w = w2 <;> simp [get_set, h]
  | some l =>
    by_cases h : w = w2
    · subst h
      simp [get_set, hg]
    · simp [get_set, h, hg]

theorem keys_addWord (id : Int) (t : LookupTable) (w w2 : String) :
    w2 ∈ (addWord id t w).keys ↔ w2 = w ∨ w2 ∈ t.keys := by
  rw [mem_keys_iff, mem_keys_iff, get_addWord]
  by_cases h : w = w2
  · simp [h]
  · have h2 : ¬ w2 = w := fun e => h e.symm
    simp [h, h2]

theorem addWord_nodup (id : Int) (t : LookupTable) (w : String)
    (h : t.keys.Nodup) : (addWord id t w).keys.Nodup := by
  unfold addWord
  apply keys_set_nodup
  split
  · exact keys_set_nodup t w [] h
  · exact h

/-- The entry of a word after the inner loop over the text of one sentence. -/
theorem get_foldl_addWord (id : Int) (words : List String) (t : LookupTable)
    (w : String) :
    (words.foldl (addWord id) t).get w =
      if words.count w = 0 then t.get w
      else some ((t.get w).getD [] ++ List.replicate (words.count w) id) := by
  induction words generalizing t with
  | nil => simp
  | cons x xs ih =>
    rw [List.foldl_cons, ih, get_addWord]
    by_cases hx : x = w
    · subst hx
      by_cases hc : xs.count x = 0
      · simp [hc, List.count_cons_self]
      · simp [hc, List.count_cons_self, List.replicate_succ]
    · have hcount : (x :: xs).count w = xs.count w := by
        rw [List.count_cons]; simp [hx]
      simp [hx, hcount]

theorem foldl_addWord_nodup (id : Int) (words : List String) (t : LookupTable)
    (h : t.keys.Nodup) : (words.foldl (addWord id) t).keys.Nodup := by
  induction words generalizing t with
  | nil => simpa using h
  | cons x xs ih =>
    rw [List.foldl_cons]
    exact ih _ (addWord_nodup id t x h)

/-- The outer loop of `create_lookup_table`, started from any map. -/
def aggregate (t : LookupTable) (sentences : List Sentence) : LookupTable :=
  sentences.foldl (fun t sentence => sentence.text.foldl (addWord sentence.id) t) t

theorem occurrences_cons (w : String) (s : Sentence) (ss : List Sentence) :
    occurrences w (s :: ss) = List.replicate (s.text.count w) s.id ++ occurrences w ss := by
  simp [occurrences, List.flatMap_cons]

/-- The entry of a word after the outer loop over the sentences. -/
theorem get_aggregate (ss : List Sentence) (t : LookupTable) (w : String) :
    (aggregate t ss).get w =
      match t.get w with
      | some l => some (l ++ occurrences w ss)
      | none => if occurrences w ss = [] then none else some (occurrences w ss) := by
  induction ss generalizing t with
  | nil =>
    cases h : t.get w <;> simp [aggregate, occurrences, h]
  | cons s rest ih =>
    have hstep : aggregate t (s :: rest) =
        aggregate (s.text.foldl (addWord s.id) t) rest := by
      simp [aggregate]
    rw [hstep, ih, get_foldl_addWord, occurrences_cons]
    by_cases hc : s.text.count w = 0
    · cases h : t.get w <;> simp [hc, h]
    · cases h : t.get w <;> simp [hc, h]

theorem aggregate_nodup (ss : List Sentence) (t : LookupTable) (h : t.keys.Nodup) :
    (aggregate t ss).keys.Nodup := by
  induction ss generalizing t with
  | nil => simpa [aggregate] using h
  | cons s rest ih =>
    have hstep : aggregate t (s :: rest) =
        aggregate (s.text.foldl (addWord s.id) t) rest := by
      simp [aggregate]
    rw [hstep]
    exact ih _ (foldl_addWord_nodup s.id s.text t h)

theorem occurrences_eq_nil (w : String) (ss : List Sentence) :
    occurrences w ss = [] ↔ ¬ ∃ s ∈ ss, w ∈ s.text := by
  induction ss with
  | nil => simp [occurrences]
  | cons s rest ih =>
    rw [occurrences_cons, List.append_eq_nil, ih]
    simp [List.replicate_eq_nil_iff, List.count_eq_zero]

theorem occurrences_length (w : String) (ss : List Sentence) :
    (occurrences w ss).length = (ss.map (fun s => s.text.count w)).sum := by
  induction ss with
  | nil => simp [occurrences]
  | cons s rest ih =>
    rw [occurrences_cons, List.length_append, ih]
    simp

/-- The entry of a word in the index that `create_lookup_table` delivers. -/
theorem get_create (ss : List Sentence) (w : String) :
    (create_lookup_table ss).get w =
      if occurrences w ss = [] then none else some (occurrences w ss) := by
  have h := get_aggregate ss [] w
  simpa [aggregate, create_lookup_table, LookupTable.get] using h

theorem occurrences_perm (w : String) (ss1 ss2 : List Sentence) (h : ss1.Perm ss2) :
    (occurrences w ss1).Perm (occurrences w ss2) :=
  List.Perm.flatMap_right _ h

/-- C1. For every finite sequence of sentences received by `create_lookup_table`, in
arrival order, the delivered index has the key `w` exactly when `w` occurs in the text
of a sentence (the keys being pairwise distinct), and then its entry is the
concatenation over the sentences, in arrival order, of the id of the sentence repeated
once per occurrence of `w`; the length of an entry is the total number of occurrences
of `w`. -/
theorem create_lookup_table_index (sentences : List Sentence) (w : String) :
    (create_lookup_table sentences).keys.Nodup ∧
    (w ∈ (create_lookup_table sentences).keys ↔ ∃ s ∈ sentences, w ∈ s.text) ∧
    ((create_lookup_table sentences).get w ≠ none ↔ ∃ s ∈ sentences, w ∈ s.text) ∧
    ((∃ s ∈ sentences, w ∈ s.text) →
      (create_lookup_table sentences).get w =
        some (sentences.flatMap (fun s => List.replicate (s.text.count w) s.id))) ∧
    (∀ ids, (create_lookup_table sentences).get w = some ids →
      ids.length = (sentences.map (fun s => s.text.count w)).sum) := by
  have hget := get_create sentences w
  have hnil := occurrences_eq_nil w sentences
  have hkey : (create_lookup_table sentences).get w ≠ none ↔
      ∃ s ∈ sentences, w ∈ s.text := by
    rw [hget]
    by_cases ho : occurrences w sentences = []
    · simp only [ho, if_true, ne_eq, not_true_eq_false, false_iff]
      exact hnil.1 ho
    · simp only [ho, if_false, ne_eq, reduceCtorEq, not_false_eq_true, true_iff]
      by_contra hcon
      exact ho (hnil.2 hcon)
  refine ⟨?_, ?_, hkey, ?_, ?_⟩
  · have := aggregate_nodup sentences [] (by simp [LookupTable.keys])
    simpa [aggregate, create_lookup_table] using this
  · rw [mem_keys_iff]; exact hkey
  · intro hex
    have ho : ¬ occurrences w sentences = [] := fun h => hnil.1 h hex
    rw [hget, if_neg ho]
    rfl
  · intro ids hids
    rw [hget] at hids
    by_cases ho : occurrences w sentences = []
    · simp [ho] at hids
    · simp only [ho, if_false, Option.some.injEq] at hids
      rw [← hids]
      exact occurrences_length w sentences

/-- C2. For two sequences of sentences that are permutations of one another,
`create_lookup_table` delivers indexes with the same keys, and for every key the two
id lists are permutations of each other. -/
theorem create_lookup_table_perm (ss1 ss2 : List Sentence) (h : ss1.Perm ss2) :
    (∀ w, w ∈ (create_lookup_table ss1).keys ↔ w ∈ (create_lookup_table ss2).keys) ∧
    (∀ w ids1, (create_lookup_table ss1).get w = some ids1 →
      ∃ ids2, (create_lookup_table ss2).get w = some ids2 ∧ ids1.Perm ids2) := by
  have hp : ∀ w, (occurrences w ss1).Perm (occurrences w ss2) :=
    fun w => occurrences_perm w ss1 ss2 h
  have hnil : ∀ w, occurrences w ss1 = [] ↔ occurrences w ss2 = [] := by
    intro w
    constructor
    · intro h1
      have := hp w
      rw [h1] at this
      exact List.Perm.nil_eq this |>.symm
    · intro h2
      have := hp w
      rw [h2] at this
      exact List.Perm.eq_nil this
  constructor
  · intro w
    rw [mem_keys_iff, mem_keys_iff, get_create, get_create]
    by_cases h1 : occurrences w ss1 = []
    · have h2 := (hnil w).1 h1
      simp [h1, h2]
    · have h2 : ¬ occurrences w ss2 = [] := fun e => h1 ((hnil w).2 e)
      simp [h1, h2]
  · intro w ids1 hids
    rw [get_create] at hids
    rw [get_create]
    by_cases h1 : occurrences w ss1 = []
    · simp [h1] at hids
    · have h2 : ¬ occurrences w ss2 = [] := fun e => h1 ((hnil w).2 e)
      simp only [h1, if_false, Option.some.injEq] at hids
      refine ⟨occurrences w ss2, by simp [h2], ?_⟩
      rw [← hids]
      exact hp w

/-- A run of C2 on two sentences taken in both orders. -/
theorem create_lookup_table_perm_witness :
    [(⟨1, ["a", "b"]⟩ : Sentence), ⟨2, ["a"]⟩].Perm [⟨2, ["a"]⟩, ⟨1, ["a", "b"]⟩] ∧
    (create_lookup_table [⟨1, ["a", "b"]⟩, ⟨2, ["a"]⟩]).get "a" = some [1, 2] ∧
    (create_lookup_table [⟨2, ["a"]⟩, ⟨1, ["a", "b"]⟩]).get "a" = some [2, 1] ∧
    ((∀ w, w ∈ (create_lookup_table [⟨1, ["a", "b"]⟩, ⟨2, ["a"]⟩]).keys ↔
        w ∈ (create_lookup_table [⟨2, ["a"]⟩, ⟨1, ["a", "b"]⟩]).keys) ∧
      (∀ w ids1, (create_lookup_table [⟨1, ["a", "b"]⟩, ⟨2, ["a"]⟩]).get w = some ids1 →
        ∃ ids2, (create_lookup_table [⟨2, ["a"]⟩, ⟨1, ["a", "b"]⟩]).get w = some ids2 ∧
          ids1.Perm ids2)) :=
  ⟨List.Perm.swap _ _ _, by decide, by decide,
    create_lookup_table_perm _ _ (List.Perm.swap _ _ _)⟩

/-! ## Splitting -/

theorem invalidData_ne_invalidId (k k2 : Int) (c f : String) :
    invalidData k c ≠ invalidId k2 f := by
  intro h
  have h2 := congrArg (fun s => s.data.get? 8) h
  simp [invalidData, invalidId, String.data_append] at h2

theorem cut_eq_none (sep : Char) (s : List Char) : cut sep s = none ↔ sep ∉ s := by
  induction s with
  | nil => simp [cut]
  | cons c cs ih =>
    by_cases h : c = sep
    · simp [cut, h]
    · have h2 : ¬ sep = c := fun e => h e.symm
      cases hc : cut sep cs with
      | none => simp [cut, h, hc, h2, ih.1 hc]
      | some p =>
        have : sep ∈ cs := by
          by_contra hn
          rw [ih.2 hn] at hc
          cases hc
        simp [cut, h, hc, this]

theorem cut_of_append (sep : Char) (a b : List Char) (h : sep ∉ a) :
    cut sep (a ++ sep :: b) = some (a, b) := by
  induction a with
  | nil => simp [cut]
  | cons x xs ih =>
    have hx : ¬ x = sep := fun e => h (by simp [e])
    have hxs : sep ∉ xs := fun e => h (by simp [e])
    simp [cut, hx, ih hxs]

theorem cut_some_spec (sep : Char) (s a b : List Char) (h : cut sep s = some (a, b)) :
    s = a ++ sep :: b ∧ sep ∉ a := by
  induction s generalizing a b with
  | nil => simp [cut] at h
  | cons c cs ih =>
    by_cases hc : c = sep
    · simp only [cut, hc, if_true, Option.some.injEq, Prod.mk.injEq] at h
      obtain ⟨rfl, rfl⟩ := h
      simp [hc]
    · cases hcut : cut sep cs with
      | none => simp [cut, hc, hcut] at h
      | some p =>
        obtain ⟨a2, b2⟩ := p
        simp only [cut, hc, if_false, hcut, Option.some.injEq, Prod.mk.injEq] at h
        obtain ⟨rfl, rfl⟩ := h
        have hp := ih a2 b2 hcut
        have h2 : ¬ sep = c := fun e => hc e.symm
        refine ⟨by rw [hp.1]; simp, ?_⟩
        simp [h2, hp.2]

theorem genSplit_length (sep : Char) (k : Nat) (s : List Char) :
    (genSplit sep k s).length = min (s.count sep) k + 1 := by
  induction k generalizing s with
  | zero => simp [genSplit]
  | succ k ih =>
    cases hc : cut sep s with
    | none =>
      have := (cut_eq_none sep s).1 hc
      simp [genSplit, hc, List.count_eq_zero.2 this]
    | some p =>
      obtain ⟨a, b⟩ := p
      have hp := cut_some_spec sep s a b hc
      have hcount : s.count sep = b.count sep + 1 := by
        rw [hp.1, List.count_append, List.count_cons_self, List.count_eq_zero.2 hp.2]
        omega
      simp only [genSplit, hc, List.length_cons, ih, hcount]
      omega

theorem SplitN_length (s : String) (sep : Char) (n : Nat) (hn : 0 < n) :
    (SplitN s sep n).length = min (s.data.count sep) (n - 1) + 1 := by
  have h0 : ¬ n = 0 := by omega
  simp [SplitN, h0, genSplit_length]

/-- The three fields of a line with two tabs or more: the text before the first tab,
the text between the first two tabs, and everything after the second tab. -/
theorem SplitN_three (a b rest : List Char) (ha : '\t' ∉ a) (hb : '\t' ∉ b) :
    SplitN (String.mk (a ++ '\t' :: (b ++ '\t' :: rest))) '\t' 3 =
      [String.mk a, String.mk b, String.mk rest] := by
  simp [SplitN, genSplit, cut_of_append, ha, hb]

/-- A line splits into three fields exactly in the way of `SplitN_three`. -/
theorem SplitN_three_inv (c p0 p1 p2 : String) (h : SplitN c '\t' 3 = [p0, p1, p2]) :
    c.data = p0.data ++ '\t' :: (p1.data ++ '\t' :: p2.data) ∧
      '\t' ∉ p0.data ∧ '\t' ∉ p1.data := by
  simp only [SplitN, OfNat.ofNat_ne_zero, if_false] at h
  cases h1 : cut '\t' c.data with
  | none => simp [genSplit, h1] at h
  | some p =>
    obtain ⟨a, r⟩ := p
    cases h2 : cut '\t' r with
    | none => simp [genSplit, h1, h2] at h
    | some q =>
      obtain ⟨b, r2⟩ := q
      simp [genSplit, h1, h2] at h
      obtain ⟨e0, e1, e2⟩ := h
      have s1 := cut_some_spec _ _ _ _ h1
      have s2 := cut_some_spec _ _ _ _ h2
      subst e0 e1 e2
      simp [s1.1, s2.1, s1.2, s2.2]

/-- The field count test of line 65. -/
theorem SplitN_three_iff (c : String) :
    (∃ p0 p1 p2, SplitN c '\t' 3 = [p0, p1, p2]) ↔ 2 ≤ c.data.count '\t' := by
  have hl := SplitN_length c '\t' 3 (by decide)
  constructor
  · rintro ⟨p0, p1, p2, h⟩
    rw [h] at hl
    simp at hl
    omega
  · intro h2
    have h3 : (SplitN c '\t' 3).length = 3 := by rw [hl]; omega
    match hs : SplitN c '\t' 3, h3 with
    | [p0, p1, p2], _ => exact ⟨p0, p1, p2, rfl⟩

/-! ## One line -/

theorem process_line_fields (u : Bool) (tagger : String → List Node) (k : Int)
    (c p0 p1 p2 : String) (h : SplitN c '\t' 3 = [p0, p1, p2]) :
    process_line u tagger ⟨k, c⟩ =
      if p1 ≠ "jpn" then .ok none
      else
        match (if u then (.ok (k - 1) : Except Abort Int)
          else
            match Atoi p0 with
            | some v => .ok v
            | none => .error (.panic (invalidId k p0))) with
        | .error e => .error e
        | .ok id =>
          match wordsLoop (tagger p2) [] with
          | .error e => .error e
          | .ok words => .ok (some ⟨id, words⟩) := by
  simp only [process_line, h]

theorem process_line_malformed (u : Bool) (tagger : String → List Node) (k : Int)
    (c : String) (h : c.data.count '\t' < 2) :
    process_line u tagger ⟨k, c⟩ = .error (.panic (invalidData k c)) := by
  have hl := SplitN_length c '\t' 3 (by decide)
  have h3 : (SplitN c '\t' 3).length ≠ 3 := by rw [hl]; omega
  unfold process_line
  split
  · rename_i p0 p1 p2 heq
    simp at heq
    rw [heq] at h3
    simp at h3
  · rfl

theorem wordsLoop_ne_panic (chain : List Node) (words : List String) (m : String) :
    wordsLoop chain words ≠ .error (.panic m) := by
  induction chain generalizing words with
  | nil => simp [wordsLoop]
  | cons node tail ih =>
    cases tail with
    | nil => simp [wordsLoop]
    | cons next rest =>
      unfold wordsLoop
      simp only
      split_ifs
      · simp
      · exact ih words
      · split
        · simp
        · exact ih _

theorem process_line_data_iff (u : Bool) (tagger : String → List Node) (k : Int)
    (c : String) :
    process_line u tagger ⟨k, c⟩ = .error (.panic (invalidData k c)) ↔
      c.data.count '\t' < 2 := by
  constructor
  · intro h
    by_contra hn
    obtain ⟨p0, p1, p2, hs⟩ := (SplitN_three_iff c).2 (by omega)
    rw [process_line_fields u tagger k c p0 p1 p2 hs] at h
    by_cases hj : p1 = "jpn"
    · simp only [hj, ne_eq, not_true_eq_false, if_false] at h
      cases u with
      | true =>
        simp only [if_true] at h
        cases hw : wordsLoop (tagger p2) [] with
        | error e =>
          rw [hw] at h
          simp only [Except.error.injEq] at h
          exact wordsLoop_ne_panic _ _ _ (hw.trans (congrArg Except.error h))
        | ok ws => rw [hw] at h; simp at h
      | false =>
        cases ha : Atoi p0 with
        | none =>
          simp only [ha, Bool.false_eq_true, if_false, Except.error.injEq,
            Abort.panic.injEq] at h
          exact invalidData_ne_invalidId _ _ _ _ h.symm
        | some v =>
          simp only [ha, Bool.false_eq_true, if_false] at h
          cases hw : wordsLoop (tagger p2) [] with
          | error e =>
            rw [hw] at h
            simp only [Except.error.injEq] at h
            exact wordsLoop_ne_panic _ _ _ (hw.trans (congrArg Except.error h))
          | ok ws => rw [hw] at h; simp at h
    · simp [hj] at h
  · exact process_line_malformed u tagger k c

/-! ## All lines -/

theorem process_lines_append_error (u : Bool) (tagger : String → List Node)
    (pre post : List Line) (l : Line) (e : Abort)
    (h : process_line u tagger l = .error e) :
    ∃ e2, process_lines u tagger (pre ++ l :: post) = .error e2 := by
  induction pre with
  | nil => exact ⟨e, by simp [process_lines, h]⟩
  | cons x xs ih =>
    obtain ⟨e2, he2⟩ := ih
    cases hx : process_line u tagger x with
    | error e3 => exact ⟨e3, by simp [process_lines, hx]⟩
    | ok r => exact ⟨e2, by simp [process_lines, hx, he2]⟩

theorem number_lines_append (n : Int) (pre post : List String) :
    number_lines n (pre ++ post) =
      number_lines n pre ++ number_lines (n + pre.length) post := by
  induction pre generalizing n with
  | nil => simp [number_lines]
  | cons x xs ih =>
    have e : n + ((xs.length + 1 : Nat) : Int) = n + 1 + (xs.length : Int) := by
      push_cast; ring
    show number_lines n (x :: (xs ++ post)) = _
    rw [number_lines, ih, List.length_cons, e]
    rfl

theorem number_lines_getElem? (n : Int) (texts : List String) (i : Nat) :
    (number_lines n texts)[i]? = (texts[i]?).map (fun t => (⟨n + i, t⟩ : Line)) := by
  induction texts generalizing n i with
  | nil => simp [number_lines]
  | cons x xs ih =>
    cases i with
    | zero => simp [number_lines]
    | succ j =>
      simp only [number_lines, List.getElem?_cons_succ, ih, Nat.cast_add, Nat.cast_one]
      cases xs[j]? with
      | none => rfl
      | some t =>
        simp only [Option.map_some']
        congr 2
        ring

theorem pipeline_error_of_mem (u : Bool) (tagger : String → List Node)
    (texts : List String) (c : String) (hc : c ∈ texts)
    (h : ∀ k, ∃ e, process_line u tagger ⟨k, c⟩ = .error e) :
    delivered (pipeline u tagger texts) = none := by
  obtain ⟨pre, post, rfl⟩ := List.append_of_mem hc
  obtain ⟨e, he⟩ := h (1 + pre.length)
  have hsplit : scan_lines (pre ++ c :: post) =
      number_lines 1 pre ++ ⟨1 + pre.length, c⟩ :: number_lines (1 + pre.length + 1) post := by
    simp [scan_lines, number_lines_append, number_lines]
  obtain ⟨e2, he2⟩ := process_lines_append_error u tagger (number_lines 1 pre)
    (number_lines (1 + pre.length + 1) post) _ e he
  simp [pipeline, hsplit, he2, delivered]

/-! ## Fatal errors -/

/-- C8. A line of number `k` and content `c` makes `process_lines` panic with the
diagnostic of line 66 exactly when `c` has fewer than two tabs, that is when it splits
into fewer than three fields; this holds in either id mode and whatever the language
tag is.  An index is then never delivered.  A line with two tabs or more is split into
the text before the first tab, the text between the first two tabs, and everything
after the second tab, further tabs included, and does not raise this diagnostic. -/
theorem invalid_data_abort (use_line_numbers : Bool) (tagger : String → List Node)
    (k : Int) (c : String) :
    (process_line use_line_numbers tagger ⟨k, c⟩ =
        .error (.panic ("invalid data on line " ++ toString k ++ ": " ++ c)) ↔
      c.data.count '\t' < 2) ∧
    ((SplitN c '\t' 3).length < 3 ↔ c.data.count '\t' < 2) ∧
    (c.data.count '\t' < 2 →
      (∀ s, process_line use_line_numbers tagger ⟨k, c⟩ ≠ .ok s) ∧
      (∀ pre post, ∃ e,
        process_lines use_line_numbers tagger (pre ++ ⟨k, c⟩ :: post) = .error e) ∧
      (∀ texts, c ∈ texts → delivered (pipeline use_line_numbers tagger texts) = none)) ∧
    (∀ a b rest, '\t' ∉ a → '\t' ∉ b → c = String.mk (a ++ '\t' :: (b ++ '\t' :: rest)) →
      SplitN c '\t' 3 = [String.mk a, String.mk b, String.mk rest] ∧
      process_line use_line_numbers tagger ⟨k, c⟩ ≠
        .error (.panic ("invalid data on line " ++ toString k ++ ": " ++ c)) ∧
      (String.mk b = "jpn" → use_line_numbers = true →
        process_line use_line_numbers tagger ⟨k, c⟩ =
          match wordsLoop (tagger (String.mk rest)) [] with
          | .error e => .error e
          | .ok words => .ok (some ⟨k - 1, words⟩))) := by
  have hiff := process_line_data_iff use_line_numbers tagger k c
  have hlen := SplitN_length c '\t' 3 (by decide)
  refine ⟨hiff, ?_, ?_, ?_⟩
  · rw [hlen]; omega
  · intro hlt
    have herr := hiff.2 hlt
    refine ⟨?_, ?_, ?_⟩
    · intro s hs
      rw [herr] at hs
      cases hs
    · intro pre post
      exact process_lines_append_error use_line_numbers tagger pre post _ _ herr
    · intro texts hmem
      apply pipeline_error_of_mem use_line_numbers tagger texts c hmem
      intro k2
      exact ⟨_, process_line_malformed use_line_numbers tagger k2 c hlt⟩
  · intro a b rest ha hb hc
    have hs := SplitN_three a b rest ha hb
    rw [← hc] at hs
    refine ⟨hs, ?_, ?_⟩
    · intro hcon
      have hcount := hiff.1 hcon
      have := (SplitN_three_iff c).1 ⟨_, _, _, hs⟩
      omega
    · intro hj hu
      rw [process_line_fields use_line_numbers tagger k c _ _ _ hs]
      simp [hj, hu]

/-- C9, amended. With line numbering off, a line of number `k` that has three fields,
the tag `jpn` and an id field (the text before the first tab) that `strconv.Atoi`
rejects makes `process_lines` panic with the diagnostic of line 79, which names `k`
and the raw id field; no sentence is sent for the line and no index is delivered. -/
theorem invalid_id_abort (tagger : String → List Node) (k : Int) (c p0 p2 : String)
    (hfields : SplitN c '\t' 3 = [p0, "jpn", p2]) (hid : Atoi p0 = none) :
    process_line false tagger ⟨k, c⟩ =
      .error (.panic ("invalid id on line " ++ toString k ++ ": \x27" ++ p0 ++ "\x27")) ∧
    (c.data = p0.data ++ '\t' :: ("jpn".data ++ '\t' :: p2.data) ∧ '\t' ∉ p0.data) ∧
    (∀ pre post, ∃ e, process_lines false tagger (pre ++ ⟨k, c⟩ :: post) = .error e) ∧
    (∀ texts, c ∈ texts → delivered (pipeline false tagger texts) = none) := by
  have herr : ∀ k2 : Int, process_line false tagger ⟨k2, c⟩ =
      .error (.panic (invalidId k2 p0)) := by
    intro k2
    rw [process_line_fields false tagger k2 c _ _ _ hfields]
    simp [hid]
  have hinv := SplitN_three_inv c p0 "jpn" p2 hfields
  refine ⟨herr k, ⟨hinv.1, hinv.2.1⟩, ?_, ?_⟩
  · intro pre post
    exact process_lines_append_error false tagger pre post _ _ (herr k)
  · intro texts hmem
    apply pipeline_error_of_mem false tagger texts c hmem
    intro k2
    exact ⟨_, herr k2⟩

theorem SplitN_abc_jpn : SplitN "abc\tjpn\thello" '\t' 3 = ["abc", "jpn", "hello"] := by
  decide

theorem Atoi_abc : Atoi "abc" = none := by
  decide

/-- A run of C9 on the line `abc<TAB>jpn<TAB>hello`. -/
theorem invalid_id_abort_witness :
    process_line false charTagger ⟨7, "abc\tjpn\thello"⟩ =
      .error (.panic ("invalid id on line " ++ toString (7 : Int) ++ ": \x27" ++ "abc" ++ "\x27")) ∧
    (("abc\tjpn\thello" : String).data =
        ("abc" : String).data ++ '\t' :: ("jpn".data ++ '\t' :: ("hello" : String).data) ∧
      '\t' ∉ ("abc" : String).data) ∧
    (∀ pre post, ∃ e,
      process_lines false charTagger (pre ++ ⟨7, "abc\tjpn\thello"⟩ :: post) = .error e) ∧
    (∀ texts, "abc\tjpn\thello" ∈ texts → delivered (pipeline false charTagger texts) = none) :=
  invalid_id_abort charTagger 7 "abc\tjpn\thello" "abc" "hello" SplitN_abc_jpn Atoi_abc

/-- C9 as stated fails on a line whose tag is not `jpn`: the id field `abc` is not an
integer, the line is skipped without a diagnostic and the index is delivered. -/
theorem invalid_id_not_checked_on_other_tags :
    Atoi "abc" = none ∧
    process_line false charTagger ⟨1, "abc\teng\thello"⟩ = .ok none ∧
    delivered (pipeline false charTagger ["abc\teng\thello"]) = some [] :=
  ⟨by decide, rfl, rfl⟩

/-! ## The token loop -/

/-- The word of lines 89-93 for a node whose feature string has a seventh field. -/
def wordOf (node : Node) : String :=
  match (Split node.feature ',')[6]? with
  | some reg_form => if reg_form = "*" then node.surface else reg_form
  | none => node.surface

/-- The link between a node and the word that the loop appends for it. -/
def IsWordOf (node : Node) (w : String) : Prop :=
  node.stat ≠ NodeStat.BOSNode ∧ node.stat ≠ NodeStat.EOSNode ∧
    7 ≤ (Split node.feature ',').length ∧
    (∀ f, (Split node.feature ',')[6]? = some f →
      (f ≠ "*" → w = f) ∧ (f = "*" → w = node.surface)) ∧
    (w = "*" → node.surface = "*")

theorem isWordOf_step (node : Node) (f : String)
    (h1 : node.stat ≠ NodeStat.BOSNode) (h2 : node.stat ≠ NodeStat.EOSNode)
    (hf : (Split node.feature ',')[6]? = some f) :
    IsWordOf node (if f = "*" then node.surface else f) := by
  refine ⟨h1, h2, ?_, ?_, ?_⟩
  · by_contra hlt
    rw [List.getElem?_eq_none (by omega)] at hf
    cases hf
  · intro g hg
    rw [hf] at hg
    cases hg
    constructor
    · intro hne; simp [hne]
    · intro he; simp [he]
  · intro hw
    by_cases he : f = "*"
    · simpa [he] using hw
    · exfalso
      simp [he] at hw

/-- The words that the loop appends are the words of a subsequence of the chain, one
word per node and in the order of the chain. -/
theorem wordsLoop_words (chain : List Node) (acc words : List String)
    (h : wordsLoop chain acc = .ok words) :
    ∃ nodes new, words = acc ++ new ∧ nodes.Sublist chain ∧
      List.Forall₂ IsWordOf nodes new := by
  induction chain generalizing acc with
  | nil => simp [wordsLoop] at h
  | cons node tail ih =>
    cases tail with
    | nil => simp [wordsLoop] at h
    | cons next rest =>
      unfold wordsLoop at h
      simp only at h
      split_ifs at h with hnext hsent
      · simp only [Except.ok.injEq] at h
        exact ⟨[], [], by simp [h], List.nil_sublist _, List.Forall₂.nil⟩
      · obtain ⟨nodes, new, h1, h2, h3⟩ := ih acc h
        exact ⟨nodes, new, h1, h2.cons _, h3⟩
      · split at h
        · cases h
        · rename_i f hf
          obtain ⟨nodes, new, h1, h2, h3⟩ := ih _ h
          refine ⟨node :: nodes, (if f = "*" then node.surface else f) :: new, ?_,
            h2.cons₂ _, List.Forall₂.cons ?_ h3⟩
          · rw [h1]; simp
          · apply isWordOf_step node f _ _ hf
            · intro hb; exact hsent (Or.inl hb)
            · intro he; exact hsent (Or.inr he)

theorem wordsLoop_tokens (eos : Node) (he : eos.stat = NodeStat.EOSNode) (t : Node)
    (ts : List Node) (acc : List String)
    (hts : ∀ x ∈ t :: ts, x.stat ≠ NodeStat.BOSNode ∧ x.stat ≠ NodeStat.EOSNode ∧
      7 ≤ (Split x.feature ',').length) :
    wordsLoop (t :: ts ++ [eos]) acc = .ok (acc ++ (t :: ts).dropLast.map wordOf) := by
  induction ts generalizing t acc with
  | nil => simp [wordsLoop, he]
  | cons t2 rest ih =>
    have ht := hts t (by simp)
    have ht2 := hts t2 (by simp)
    have hrest : ∀ x ∈ t2 :: rest, x.stat ≠ NodeStat.BOSNode ∧
        x.stat ≠ NodeStat.EOSNode ∧ 7 ≤ (Split x.feature ',').length :=
      fun x hx => hts x (List.mem_cons_of_mem _ hx)
    obtain ⟨f, hf⟩ : ∃ f, (Split t.feature ',')[6]? = some f :=
      ⟨_, List.getElem?_eq_getElem (by omega)⟩
    have hstep : wordsLoop (t :: t2 :: rest ++ [eos]) acc =
        wordsLoop (t2 :: rest ++ [eos]) (acc ++ [wordOf t]) := by
      show wordsLoop (t :: t2 :: (rest ++ [eos])) acc = _
      rw [wordsLoop]
      simp [ht2.2.1, ht.1, ht.2.1, hf, wordOf]
    rw [hstep, ih t2 _ hrest]
    simp [List.dropLast]

/-- On a well-formed chain `BOS, t1, ..., tn, EOS` the loop appends the words of
`t1, ..., t(n-1)`: the last token before the end sentinel is left out. -/
theorem wordsLoop_chain (bos eos : Node) (ts : List Node)
    (hb : bos.stat = NodeStat.BOSNode) (he : eos.stat = NodeStat.EOSNode)
    (hts : ∀ x ∈ ts, x.stat ≠ NodeStat.BOSNode ∧ x.stat ≠ NodeStat.EOSNode ∧
      7 ≤ (Split x.feature ',').length) :
    wordsLoop (bos :: ts ++ [eos]) [] = .ok (ts.dropLast.map wordOf) := by
  cases ts with
  | nil => simp [wordsLoop, he]
  | cons t rest =>
    have ht := hts t (by simp)
    have hstep : wordsLoop (bos :: t :: rest ++ [eos]) [] =
        wordsLoop (t :: rest ++ [eos]) [] := by
      show wordsLoop (bos :: t :: (rest ++ [eos])) [] = _
      rw [wordsLoop]
      simp [ht.2.1, hb]
    rw [hstep, wordsLoop_tokens eos he t rest [] hts]
    simp

/-- C3. The claim fails on the code: for the chain `BOS, 猫, EOS` of one token the
sentence has no word, and for the chain `BOS, 猫, が, 好き, EOS` of three tokens it has
the two words 猫 and が; the last token is left out. -/
theorem last_token_left_out :
    wordsLoop [⟨NodeStat.BOSNode, "", "BOS/EOS,*,*,*,*,*,*,*,*"⟩,
        ⟨NodeStat.NormalNode, "猫", "名詞,一般,*,*,*,*,猫,ネコ,ネコ"⟩,
        ⟨NodeStat.EOSNode, "", "BOS/EOS,*,*,*,*,*,*,*,*"⟩] [] = .ok [] ∧
    wordsLoop nekoChain [] = .ok ["猫", "が"] ∧
    process_line false nekoTagger ⟨1, "5\tjpn\t猫が好き"⟩ = .ok (some ⟨5, ["猫", "が"]⟩) :=
  ⟨rfl, rfl, rfl⟩

/-- C10. Every word of a sentence that `process_lines` sends comes from a node of the
chain of the text field that is not a sentinel and whose feature string has seven
comma-separated fields or more, one word per node and in chain order: the word is the
seventh field when that field is not `*`, and the surface form when it is; so the word
is `*` only if the surface form is `*`. -/
theorem word_is_lemma_or_surface (use_line_numbers : Bool)
    (tagger : String → List Node) (line : Line) (s : Sentence)
    (h : process_line use_line_numbers tagger line = .ok (some s)) :
    ∃ p0 p2 nodes, SplitN line.content '\t' 3 = [p0, "jpn", p2] ∧
      nodes.Sublist (tagger p2) ∧
      List.Forall₂ (fun node w =>
        node.stat ≠ NodeStat.BOSNode ∧ node.stat ≠ NodeStat.EOSNode ∧
        7 ≤ (Split node.feature ',').length ∧
        (∀ f, (Split node.feature ',')[6]? = some f →
          (f ≠ "*" → w = f) ∧ (f = "*" → w = node.surface)) ∧
        (w = "*" → node.surface = "*")) nodes s.text := by
  obtain ⟨k, c⟩ := line
  by_cases hcount : c.data.count '\t' < 2
  · rw [process_line_malformed use_line_numbers tagger k c hcount] at h
    cases h
  · obtain ⟨p0, p1, p2, hs⟩ := (SplitN_three_iff c).2 (by omega)
    rw [process_line_fields use_line_numbers tagger k c p0 p1 p2 hs] at h
    by_cases hj : p1 = "jpn"
    · subst hj
      simp only [ne_eq, not_true_eq_false, if_false] at h
      split at h
      · cases h
      · rename_i id hid
        cases hw : wordsLoop (tagger p2) [] with
        | error e => rw [hw] at h; cases h
        | ok words =>
          rw [hw] at h
          simp only [Except.ok.injEq, Option.some.injEq] at h
          obtain ⟨nodes, new, h1, h2, h3⟩ := wordsLoop_words _ _ _ hw
          refine ⟨p0, p2, nodes, hs, h2, ?_⟩
          rw [← h]
          simp only [List.nil_append] at h1
          rw [h1]
          exact h3
    · simp [hj] at h

/-- A run of C10 on the line `5<TAB>jpn<TAB>猫が好き`. -/
theorem word_is_lemma_or_surface_witness :
    process_line false nekoTagger ⟨1, "5\tjpn\t猫が好き"⟩ = .ok (some ⟨5, ["猫", "が"]⟩) ∧
    ∃ p0 p2 nodes, SplitN "5\tjpn\t猫が好き" '\t' 3 = [p0, "jpn", p2] ∧
      nodes.Sublist (nekoTagger p2) ∧
      List.Forall₂ (fun node w =>
        node.stat ≠ NodeStat.BOSNode ∧ node.stat ≠ NodeStat.EOSNode ∧
        7 ≤ (Split node.feature ',').length ∧
        (∀ f, (Split node.feature ',')[6]? = some f →
          (f ≠ "*" → w = f) ∧ (f = "*" → w = node.surface)) ∧
        (w = "*" → node.surface = "*")) nodes ["猫", "が"] :=
  ⟨rfl, word_is_lemma_or_surface false nekoTagger ⟨1, "5\tjpn\t猫が好き"⟩
    ⟨5, ["猫", "が"]⟩ rfl⟩

/-! ## Sentence ids -/

theorem scan_lines_getElem? (texts : List String) (i : Nat) :
    (scan_lines texts)[i]? = (texts[i]?).map (fun t => (⟨(i : Int) + 1, t⟩ : Line)) := by
  rw [scan_lines, number_lines_getElem?]
  cases texts[i]? with
  | none => rfl
  | some t =>
    simp only [Option.map_some']
    congr 2
    ring

/-- C6. For a line with three fields and the tag `jpn`, the id of the sentence sent is
fixed by the mode: with line numbering it is `line.number - 1`, whatever the id field
is, and `scan_lines` gives the number `i + 1` to the line at zero-based position `i`,
so that the id is `i`; without line numbering it is the value that `strconv.Atoi`
returns for the id field, the text before the first tab. -/
theorem sentence_id_by_mode (tagger : String → List Node) (k : Int)
    (c p0 p2 : String) (hfields : SplitN c '\t' 3 = [p0, "jpn", p2]) :
    (process_line true tagger ⟨k, c⟩ =
      match wordsLoop (tagger p2) [] with
      | .error e => .error e
      | .ok words => .ok (some ⟨k - 1, words⟩)) ∧
    (∀ v, Atoi p0 = some v →
      process_line false tagger ⟨k, c⟩ =
        match wordsLoop (tagger p2) [] with
        | .error e => .error e
        | .ok words => .ok (some ⟨v, words⟩)) ∧
    (∀ s, process_line true tagger ⟨k, c⟩ = .ok (some s) → s.id = k - 1) ∧
    (∀ s, process_line false tagger ⟨k, c⟩ = .ok (some s) → Atoi p0 = some s.id) ∧
    (c.data = p0.data ++ '\t' :: ("jpn".data ++ '\t' :: p2.data) ∧ '\t' ∉ p0.data) ∧
    (∀ (texts : List String) (i : Nat), texts[i]? = some c →
      (scan_lines texts)[i]? = some ⟨(i : Int) + 1, c⟩ ∧
      ∀ s, process_line true tagger ⟨(i : Int) + 1, c⟩ = .ok (some s) → s.id = i) := by
  have htrue : ∀ k2 : Int, process_line true tagger ⟨k2, c⟩ =
      match wordsLoop (tagger p2) [] with
      | .error e => .error e
      | .ok words => .ok (some ⟨k2 - 1, words⟩) := by
    intro k2
    rw [process_line_fields true tagger k2 c _ _ _ hfields]
    simp
  have hid : ∀ (k2 : Int) (s : Sentence),
      process_line true tagger ⟨k2, c⟩ = .ok (some s) → s.id = k2 - 1 := by
    intro k2 s hs
    rw [htrue k2] at hs
    cases hw : wordsLoop (tagger p2) [] with
    | error e => rw [hw] at hs; cases hs
    | ok words =>
      rw [hw] at hs
      simp only [Except.ok.injEq, Option.some.injEq] at hs
      rw [← hs]
  have hinv := SplitN_three_inv c p0 "jpn" p2 hfields
  refine ⟨htrue k, ?_, hid k, ?_, ⟨hinv.1, hinv.2.1⟩, ?_⟩
  · intro v hv
    rw [process_line_fields false tagger k c _ _ _ hfields]
    simp [hv]
  · intro s hs
    rw [process_line_fields false tagger k c _ _ _ hfields] at hs
    cases ha : Atoi p0 with
    | none => simp [ha] at hs
    | some v =>
      simp only [ha, ne_eq, not_true_eq_false, if_false, Bool.false_eq_true] at hs
      cases hw : wordsLoop (tagger p2) [] with
      | error e => rw [hw] at hs; cases hs
      | ok words =>
        rw [hw] at hs
        simp only [Except.ok.injEq, Option.some.injEq] at hs
        rw [← hs]
  · intro texts i hi
    refine ⟨by rw [scan_lines_getElem?, hi]; rfl, ?_⟩
    intro s hs
    have := hid _ s hs
    rw [this]
    ring

theorem SplitN_neko : SplitN "5\tjpn\t猫が好き" '\t' 3 = ["5", "jpn", "猫が好き"] := by
  decide

/-- A run of C6 on the line `5<TAB>jpn<TAB>猫が好き` taken as line 1. -/
theorem sentence_id_by_mode_witness :
    process_line true nekoTagger ⟨1, "5\tjpn\t猫が好き"⟩ = .ok (some ⟨0, ["猫", "が"]⟩) ∧
    process_line false nekoTagger ⟨1, "5\tjpn\t猫が好き"⟩ = .ok (some ⟨5, ["猫", "が"]⟩) ∧
    ((process_line true nekoTagger ⟨1, "5\tjpn\t猫が好き"⟩ =
      match wordsLoop (nekoTagger "猫が好き") [] with
      | .error e => .error e
      | .ok words => .ok (some ⟨1 - 1, words⟩)) ∧
    (∀ v, Atoi "5" = some v →
      process_line false nekoTagger ⟨1, "5\tjpn\t猫が好き"⟩ =
        match wordsLoop (nekoTagger "猫が好き") [] with
        | .error e => .error e
        | .ok words => .ok (some ⟨v, words⟩)) ∧
    (∀ s, process_line true nekoTagger ⟨1, "5\tjpn\t猫が好き"⟩ = .ok (some s) →
      s.id = 1 - 1) ∧
    (∀ s, process_line false nekoTagger ⟨1, "5\tjpn\t猫が好き"⟩ = .ok (some s) →
      Atoi "5" = some s.id) ∧
    (("5\tjpn\t猫が好き" : String).data =
        ("5" : String).data ++ '\t' :: ("jpn".data ++ '\t' :: ("猫が好き" : String).data) ∧
      '\t' ∉ ("5" : String).data) ∧
    (∀ (texts : List String) (i : Nat), texts[i]? = some "5\tjpn\t猫が好き" →
      (scan_lines texts)[i]? = some ⟨(i : Int) + 1, "5\tjpn\t猫が好き"⟩ ∧
      ∀ s, process_line true nekoTagger ⟨(i : Int) + 1, "5\tjpn\t猫が好き"⟩ =
        .ok (some s) → s.id = i)) :=
  ⟨rfl, rfl, sentence_id_by_mode nekoTagger 1 "5\tjpn\t猫が好き" "5" "猫が好き" SplitN_neko⟩

/-! ## Lines of another language -/

theorem process_lines_cons_none (u : Bool) (tagger : String → List Node) (l : Line)
    (rest : List Line) (h : process_line u tagger l = .ok none) :
    process_lines u tagger (l :: rest) = process_lines u tagger rest := by
  rw [process_lines, h]
  cases process_lines u tagger rest <;> rfl

theorem process_lines_append (u : Bool) (tagger : String → List Node)
    (xs ys : List Line) :
    process_lines u tagger (xs ++ ys) =
      match process_lines u tagger xs with
      | .error e => .error e
      | .ok a =>
        match process_lines u tagger ys with
        | .error e => .error e
        | .ok b => .ok (a ++ b) := by
  induction xs with
  | nil =>
    simp only [List.nil_append, process_lines]
    cases process_lines u tagger ys <;> rfl
  | cons x rest ih =>
    rw [List.cons_append, process_lines, process_lines, ih]
    cases process_line u tagger x with
    | error e => rfl
    | ok r =>
      cases process_lines u tagger rest with
      | error e => rfl
      | ok a =>
        cases process_lines u tagger ys with
        | error e => cases r <;> rfl
        | ok b => cases r <;> rfl

theorem process_line_skip (u : Bool) (tagger : String → List Node) (k : Int)
    (c p0 p1 p2 : String) (hfields : SplitN c '\t' 3 = [p0, p1, p2])
    (htag : p1 ≠ "jpn") : process_line u tagger ⟨k, c⟩ = .ok none := by
  rw [process_line_fields u tagger k c p0 p1 p2 hfields]
  simp [htag]

/-- Without line numbering the outcome of a line does not depend on its number,
the diagnostic of a panic apart. -/
theorem process_line_number_free (tagger : String → List Node) (k k2 : Int)
    (c : String) :
    (process_line false tagger ⟨k, c⟩).toOption =
      (process_line false tagger ⟨k2, c⟩).toOption := by
  by_cases hcount : c.data.count '\t' < 2
  · rw [process_line_malformed false tagger k c hcount,
      process_line_malformed false tagger k2 c hcount]
    rfl
  · obtain ⟨p0, p1, p2, hs⟩ := (SplitN_three_iff c).2 (by omega)
    rw [process_line_fields false tagger k c p0 p1 p2 hs,
      process_line_fields false tagger k2 c p0 p1 p2 hs]
    by_cases hj : p1 = "jpn"
    · cases ha : Atoi p0 with
      | none => simp [hj, ha, Except.toOption]
      | some v => simp [hj, ha]
    · simp [hj]

theorem process_lines_toOption_cons (u : Bool) (tagger : String → List Node)
    (l : Line) (rest : List Line) :
    (process_lines u tagger (l :: rest)).toOption =
      (process_line u tagger l).toOption.bind (fun r =>
        (process_lines u tagger rest).toOption.map (fun ss =>
          match r with
          | none => ss
          | some s => s :: ss)) := by
  rw [process_lines]
  cases process_line u tagger l with
  | error e => rfl
  | ok r =>
    cases process_lines u tagger rest with
    | error e => rfl
    | ok ss => cases r <;> rfl

theorem process_lines_number_free (tagger : String → List Node) (n m : Int)
    (texts : List String) :
    (process_lines false tagger (number_lines n texts)).toOption =
      (process_lines false tagger (number_lines m texts)).toOption := by
  induction texts generalizing n m with
  | nil => rfl
  | cons t ts ih =>
    rw [number_lines, number_lines, process_lines_toOption_cons,
      process_lines_toOption_cons, ih (n + 1) (m + 1),
      process_line_number_free tagger n m t]

theorem process_lines_toOption_append (u : Bool) (tagger : String → List Node)
    (xs ys : List Line) :
    (process_lines u tagger (xs ++ ys)).toOption =
      (process_lines u tagger xs).toOption.bind (fun a =>
        (process_lines u tagger ys).toOption.map (fun b => a ++ b)) := by
  rw [process_lines_append]
  cases process_lines u tagger xs with
  | error e => rfl
  | ok a =>
    cases process_lines u tagger ys with
    | error e => rfl
    | ok b => rfl

theorem scan_lines_insert (pre post : List String) (c : String) :
    scan_lines (pre ++ c :: post) =
      number_lines 1 pre ++ ⟨1 + pre.length, c⟩ ::
        number_lines (1 + pre.length + 1) post := by
  simp [scan_lines, number_lines_append, number_lines]

/-! ## The file and its lines -/

/-- The content of a file: the given lines, each followed by a newline, then a last
piece without a newline, which is empty when the file ends with a newline. -/
def fileOf (lines : List String) (last : String) : String :=
  String.mk (lines.flatMap (fun l => l.data ++ ['\n']) ++ last.data)

/-- The text that the scanner returns for a line of the file: `dropCR` of it. -/
def scanText (line : String) : String :=
  String.mk (dropCR line.data)

/-- The lines of `fileOf lines last` as the scanner cuts them. -/
def rawLines (lines : List String) (last : String) : List (List Char) :=
  lines.map String.data ++ (if last.data = [] then [] else [last.data])

/-- A line of three fields with the tag `eng` whose text field is `n` times the
letter `a`. -/
def longLine (n : Nat) : String :=
  String.mk ('6' :: '\t' :: ('e' :: 'n' :: 'g' :: '\t' :: List.replicate n 'a'))

/-- A line of three fields with the tag `eng` whose text field has 65536 bytes. -/
def longEng : String :=
  longLine 65536

theorem scanRaw_line (l rest cur : List Char) (h : '\n' ∉ l) :
    scanRaw (l ++ '\n' :: rest) cur = (cur ++ l) :: scanRaw rest [] := by
  induction l generalizing cur with
  | nil => simp [scanRaw]
  | cons x xs ih =>
    have hx : ¬ x = '\n' := fun e => h (by simp [e])
    have hxs : '\n' ∉ xs := fun e => h (by simp [e])
    simp [scanRaw, hx, ih _ hxs]

theorem scanRaw_last (l cur : List Char) (h : '\n' ∉ l) :
    scanRaw l cur = if cur ++ l = [] then [] else [cur ++ l] := by
  induction l generalizing cur with
  | nil => simp [scanRaw]
  | cons x xs ih =>
    have hx : ¬ x = '\n' := fun e => h (by simp [e])
    have hxs : '\n' ∉ xs := fun e => h (by simp [e])
    simp [scanRaw, hx, ih _ hxs]

theorem scanRaw_fileOf (lines : List String) (last : String)
    (h : ∀ l ∈ lines, '\n' ∉ l.data) (hl : '\n' ∉ last.data) :
    scanRaw (fileOf lines last).data [] = rawLines lines last := by
  induction lines with
  | nil =>
    simp only [fileOf, rawLines, List.flatMap_nil, List.nil_append, List.map_nil]
    rw [scanRaw_last _ _ hl]
    simp
  | cons l ls ih =>
    have hls : ∀ x ∈ ls, '\n' ∉ x.data := fun x hx => h x (List.mem_cons_of_mem _ hx)
    have hl0 : '\n' ∉ l.data := h l (by simp)
    have ih2 := ih hls
    simp only [fileOf, rawLines] at ih2 ⊢
    simp only [List.flatMap_cons, List.append_assoc, List.singleton_append,
      List.map_cons, List.cons_append]
    rw [scanRaw_line _ _ _ hl0]
    simp only [List.nil_append]
    rw [ih2]

theorem scanChecked_append (xs ys : List (List Char)) :
    scanChecked (xs ++ ys) =
      match (scanChecked xs).2 with
      | some _ => scanChecked xs
      | none => ((scanChecked xs).1 ++ (scanChecked ys).1, (scanChecked ys).2) := by
  induction xs with
  | nil => simp [scanChecked]
  | cons t ts ih =>
    by_cases hlong : 65536 ≤ (String.mk t).utf8ByteSize
    · have e1 : scanChecked (t :: ts ++ ys) = ([], some Abort.scanTooLong) := by
        show scanChecked (t :: (ts ++ ys)) = _
        rw [scanChecked, if_pos hlong]
      have e2 : scanChecked (t :: ts) = ([], some Abort.scanTooLong) := by
        rw [scanChecked, if_pos hlong]
      rw [e1, e2]
    · have e1 : scanChecked (t :: ts ++ ys) =
          (String.mk (dropCR t) :: (scanChecked (ts ++ ys)).1,
            (scanChecked (ts ++ ys)).2) := by
        show scanChecked (t :: (ts ++ ys)) = _
        rw [scanChecked, if_neg hlong]
      have e2 : scanChecked (t :: ts) =
          (String.mk (dropCR t) :: (scanChecked ts).1, (scanChecked ts).2) := by
        rw [scanChecked, if_neg hlong]
      rw [e1, e2, ih]
      cases h2 : (scanChecked ts).2 with
      | none => rfl
      | some e => simp [h2]

theorem scanChecked_too_long (raws : List (List Char)) (t : List Char)
    (hmem : t ∈ raws) (hlong : 65536 ≤ (String.mk t).utf8ByteSize) :
    (scanChecked raws).2 ≠ none := by
  induction raws with
  | nil => simp at hmem
  | cons x xs ih =>
    by_cases hx : 65536 ≤ (String.mk x).utf8ByteSize
    · rw [scanChecked, if_pos hx]
      simp
    · have hne : t ≠ x := fun e => hx (e ▸ hlong)
      have hin : t ∈ xs := by
        rcases List.mem_cons.1 hmem with h1 | h1
        · exact absurd h1 hne
        · exact h1
      rw [scanChecked, if_neg hx]
      exact ih hin

theorem rawLines_insert (pre post : List String) (last c : String) :
    rawLines (pre ++ c :: post) last =
      pre.map String.data ++ ([c.data] ++ rawLines post last) := by
  simp [rawLines]

theorem rawLines_append (pre post : List String) (last : String) :
    rawLines (pre ++ post) last = pre.map String.data ++ rawLines post last := by
  simp [rawLines]

theorem Scanner_fileOf (lines : List String) (last : String)
    (h : ∀ l ∈ lines, '\n' ∉ l.data) (hl : '\n' ∉ last.data) :
    Scanner (fileOf lines last) = scanChecked (rawLines lines last) := by
  rw [Scanner, scanRaw_fileOf lines last h hl]

theorem scanChecked_line (c : String) (rest : List (List Char))
    (hlen : c.utf8ByteSize < 65536) :
    scanChecked ([c.data] ++ rest) =
      (scanText c :: (scanChecked rest).1, (scanChecked rest).2) := by
  have hshort : ¬ 65536 ≤ (String.mk c.data).utf8ByteSize := by
    show ¬ 65536 ≤ c.utf8ByteSize
    omega
  show scanChecked (c.data :: rest) = _
  rw [scanChecked, if_neg hshort]
  rfl

theorem run_congr (u : Bool) (tagger : String → List Node) (f1 f2 : String)
    (h : Scanner f1 = Scanner f2) : run u tagger f1 = run u tagger f2 := by
  unfold run
  rw [h]

theorem delivered_run (u : Bool) (tagger : String → List Node) (f : String) :
    delivered (run u tagger f) =
      match (Scanner f).2 with
      | some _ => none
      | none =>
        (process_lines u tagger (scan_lines (Scanner f).1)).toOption.map
          create_lookup_table := by
  unfold run
  cases process_lines u tagger (scan_lines (Scanner f).1) with
  | error e => cases (Scanner f).2 <;> rfl
  | ok ss => cases (Scanner f).2 <;> rfl

theorem process_lines_skip_line (u : Bool) (tagger : String → List Node)
    (P Q : List String) (c : String)
    (h : ∀ k, process_line u tagger ⟨k, c⟩ = .ok none) :
    process_lines u tagger (scan_lines (P ++ c :: Q)) =
      process_lines u tagger
        (number_lines 1 P ++ number_lines (1 + P.length + 1) Q) := by
  rw [scan_lines_insert, process_lines_append, process_lines_append,
    process_lines_cons_none u tagger _ _ (h _)]

theorem process_lines_remove_line (tagger : String → List Node)
    (P Q : List String) (c : String)
    (h : ∀ k, process_line false tagger ⟨k, c⟩ = .ok none) :
    (process_lines false tagger (scan_lines (P ++ c :: Q))).toOption =
      (process_lines false tagger (scan_lines (P ++ Q))).toOption := by
  have hplain : scan_lines (P ++ Q) =
      number_lines 1 P ++ number_lines (1 + P.length) Q := by
    simp [scan_lines, number_lines_append]
  rw [process_lines_skip_line false tagger P Q c h, hplain,
    process_lines_toOption_append, process_lines_toOption_append,
    process_lines_number_free tagger (1 + P.length + 1) (1 + P.length) Q]

theorem run_too_long (u : Bool) (tagger : String → List Node) (lines : List String)
    (last c : String) (h : ∀ l ∈ lines, '\n' ∉ l.data) (hl : '\n' ∉ last.data)
    (hmem : c ∈ lines) (hlong : 65536 ≤ c.utf8ByteSize) :
    delivered (run u tagger (fileOf lines last)) = none := by
  have herr : (Scanner (fileOf lines last)).2 ≠ none := by
    rw [Scanner_fileOf lines last h hl]
    apply scanChecked_too_long _ c.data
    · simp only [rawLines, List.mem_append, List.mem_map]
      exact Or.inl ⟨c, hmem, rfl⟩
    · exact hlong
  rw [delivered_run]
  cases he : (Scanner (fileOf lines last)).2 with
  | none => exact absurd he herr
  | some e => rfl

theorem SplitN_cats :
    SplitN "6\teng\tI like cats" '\t' 3 = ["6", "eng", "I like cats"] := by
  decide

theorem Scanner_fileOf_insert (pre post : List String) (last c : String)
    (hpre : ∀ l ∈ pre, '\n' ∉ l.data) (hpost : ∀ l ∈ post, '\n' ∉ l.data)
    (hlast : '\n' ∉ last.data) (hc : '\n' ∉ c.data) (hlen : c.utf8ByteSize < 65536) :
    Scanner (fileOf (pre ++ c :: post) last) =
      match (scanChecked (pre.map String.data)).2 with
      | some _ => scanChecked (pre.map String.data)
      | none =>
        ((scanChecked (pre.map String.data)).1 ++
            scanText c :: (scanChecked (rawLines post last)).1,
          (scanChecked (rawLines post last)).2) := by
  have hall : ∀ l ∈ pre ++ c :: post, '\n' ∉ l.data := by
    intro l hl
    rcases List.mem_append.1 hl with h1 | h1
    · exact hpre l h1
    · rcases List.mem_cons.1 h1 with h2 | h2
      · rw [h2]; exact hc
      · exact hpost l h2
  rw [Scanner_fileOf _ _ hall hlast, rawLines_insert, scanChecked_append,
    scanChecked_line c _ hlen]

theorem Scanner_fileOf_append (pre post : List String) (last : String)
    (hpre : ∀ l ∈ pre, '\n' ∉ l.data) (hpost : ∀ l ∈ post, '\n' ∉ l.data)
    (hlast : '\n' ∉ last.data) :
    Scanner (fileOf (pre ++ post) last) =
      match (scanChecked (pre.map String.data)).2 with
      | some _ => scanChecked (pre.map String.data)
      | none =>
        ((scanChecked (pre.map String.data)).1 ++ (scanChecked (rawLines post last)).1,
          (scanChecked (rawLines post last)).2) := by
  have hall : ∀ l ∈ pre ++ post, '\n' ∉ l.data := by
    intro l hl
    rcases List.mem_append.1 hl with h1 | h1
    · exact hpre l h1
    · exact hpost l h1
  rw [Scanner_fileOf _ _ hall hlast, rawLines_append, scanChecked_append]

theorem utf8Len_replicate_a (n : Nat) : String.utf8Len (List.replicate n 'a') = n := by
  induction n with
  | zero => rfl
  | succ k ih =>
    rw [List.replicate_succ, String.utf8Len_cons, ih]
    rfl

theorem longLine_no_newline (n : Nat) : '\n' ∉ (longLine n).data := by
  simp [longLine, List.mem_replicate]

theorem longLine_size (n : Nat) : (longLine n).utf8ByteSize = n + 6 := by
  show String.utf8Len
    ('6' :: '\t' :: ('e' :: 'n' :: 'g' :: '\t' :: List.replicate n 'a')) = n + 6
  simp only [String.utf8Len_cons, utf8Len_replicate_a]
  rfl

theorem SplitN_longLine (n : Nat) :
    SplitN (longLine n) '\t' 3 = ["6", "eng", String.mk (List.replicate n 'a')] :=
  SplitN_three ['6'] ['e', 'n', 'g'] (List.replicate n 'a') (by decide) (by decide)

/-- C5, amended. A line of the file that is shorter than 64 KiB and has, once its
trailing carriage return is dropped, three fields and a tag that is not `jpn` is
skipped in either id mode.  Without line numbering, removing it from the file leaves
the delivered index unchanged; in either mode, altering it into another such line
leaves the outcome unchanged, and so does removing it when it is the last line, with
or without its final newline. -/
theorem other_tags_ignored (tagger : String → List Node) (pre post : List String)
    (last c p0 p1 p2 : String)
    (hpre : ∀ l ∈ pre, '\n' ∉ l.data) (hpost : ∀ l ∈ post, '\n' ∉ l.data)
    (hlast : '\n' ∉ last.data) (hc : '\n' ∉ c.data) (hlen : c.utf8ByteSize < 65536)
    (hfields : SplitN (scanText c) '\t' 3 = [p0, p1, p2]) (htag : p1 ≠ "jpn") :
    (∀ u k, process_line u tagger ⟨k, scanText c⟩ = .ok none) ∧
    delivered (run false tagger (fileOf (pre ++ c :: post) last)) =
      delivered (run false tagger (fileOf (pre ++ post) last)) ∧
    (∀ u c2 q0 q1 q2, '\n' ∉ c2.data → c2.utf8ByteSize < 65536 →
      SplitN (scanText c2) '\t' 3 = [q0, q1, q2] → q1 ≠ "jpn" →
      run u tagger (fileOf (pre ++ c :: post) last) =
        run u tagger (fileOf (pre ++ c2 :: post) last)) ∧
    (∀ u, run u tagger (fileOf (pre ++ [c]) "") = run u tagger (fileOf pre "")) ∧
    (∀ u, run u tagger (fileOf pre c) = run u tagger (fileOf (pre ++ [c]) "")) := by
  have hskip : ∀ u k, process_line u tagger ⟨k, scanText c⟩ = .ok none :=
    fun u k => process_line_skip u tagger k _ p0 p1 p2 hfields htag
  have hS := Scanner_fileOf_insert pre post last c hpre hpost hlast hc hlen
  have hS0 := Scanner_fileOf_append pre post last hpre hpost hlast
  refine ⟨hskip, ?_, ?_, ?_, ?_⟩
  · cases hP : (scanChecked (pre.map String.data)).2 with
    | some e =>
      rw [hP] at hS hS0
      rw [run_congr false tagger _ _ (hS.trans hS0.symm)]
    | none =>
      rw [hP] at hS hS0
      rw [delivered_run, delivered_run, hS, hS0]
      cases (scanChecked (rawLines post last)).2 with
      | some e => rfl
      | none =>
        exact congrArg (Option.map create_lookup_table)
          (process_lines_remove_line tagger _ _ _ (hskip false))
  · intro u c2 q0 q1 q2 hc2 hlen2 hq hqtag
    have hskip2 : ∀ k, process_line u tagger ⟨k, scanText c2⟩ = .ok none :=
      fun k => process_line_skip u tagger k _ q0 q1 q2 hq hqtag
    have hS2 := Scanner_fileOf_insert pre post last c2 hpre hpost hlast hc2 hlen2
    cases hP : (scanChecked (pre.map String.data)).2 with
    | some e =>
      rw [hP] at hS hS2
      exact run_congr u tagger _ _ (hS.trans hS2.symm)
    | none =>
      rw [hP] at hS hS2
      unfold run
      rw [hS, hS2]
      dsimp only
      rw [process_lines_skip_line u tagger _ _ _ (hskip u),
        process_lines_skip_line u tagger _ _ _ hskip2]
  · intro u
    have hnil : ∀ l ∈ ([] : List String), '\n' ∉ l.data := by simp
    have hemp : '\n' ∉ ("" : String).data := by simp
    have hA := Scanner_fileOf_insert pre [] "" c hpre hnil hemp hc hlen
    have hB := Scanner_fileOf_append pre [] "" hpre hnil hemp
    rw [List.append_nil] at hB
    have hR : scanChecked (rawLines [] "") = ([], none) := rfl
    rw [hR] at hA hB
    cases hP : (scanChecked (pre.map String.data)).2 with
    | some e =>
      rw [hP] at hA hB
      exact run_congr u tagger _ _ (hA.trans hB.symm)
    | none =>
      rw [hP] at hA hB
      unfold run
      rw [hA, hB]
      dsimp only
      rw [process_lines_skip_line u tagger _ _ _ (hskip u)]
      simp [scan_lines, number_lines]
  · intro u
    apply run_congr
    have hne : c.data ≠ [] := by
      intro h0
      have h2 := (SplitN_three_iff (scanText c)).1 ⟨_, _, _, hfields⟩
      simp [scanText, h0, dropCR] at h2
    have hall : ∀ l ∈ pre ++ [c], '\n' ∉ l.data := by
      intro l hl
      rcases List.mem_append.1 hl with h1 | h1
      · exact hpre l h1
      · rw [List.mem_singleton.1 h1]; exact hc
    rw [Scanner_fileOf pre c hpre hc, Scanner_fileOf (pre ++ [c]) "" hall (by simp)]
    simp [rawLines, hne]

/-- A run of C5 on the file of the two lines `5<TAB>jpn<TAB>猫が好き` and
`6<TAB>eng<TAB>I like cats`. -/
theorem other_tags_ignored_witness :
    delivered (run false nekoTagger
      (fileOf (["5\tjpn\t猫が好き"] ++ "6\teng\tI like cats" :: []) "")) =
      some [("猫", [5]), ("が", [5])] ∧
    ((∀ u k, process_line u nekoTagger ⟨k, scanText "6\teng\tI like cats"⟩ = .ok none) ∧
    delivered (run false nekoTagger
      (fileOf (["5\tjpn\t猫が好き"] ++ "6\teng\tI like cats" :: []) "")) =
      delivered (run false nekoTagger (fileOf (["5\tjpn\t猫が好き"] ++ []) "")) ∧
    (∀ u c2 q0 q1 q2, '\n' ∉ c2.data → c2.utf8ByteSize < 65536 →
      SplitN (scanText c2) '\t' 3 = [q0, q1, q2] → q1 ≠ "jpn" →
      run u nekoTagger (fileOf (["5\tjpn\t猫が好き"] ++ "6\teng\tI like cats" :: []) "") =
        run u nekoTagger (fileOf (["5\tjpn\t猫が好き"] ++ c2 :: []) "")) ∧
    (∀ u, run u nekoTagger (fileOf (["5\tjpn\t猫が好き"] ++ ["6\teng\tI like cats"]) "") =
      run u nekoTagger (fileOf ["5\tjpn\t猫が好き"] "")) ∧
    (∀ u, run u nekoTagger (fileOf ["5\tjpn\t猫が好き"] "6\teng\tI like cats") =
      run u nekoTagger (fileOf (["5\tjpn\t猫が好き"] ++ ["6\teng\tI like cats"]) ""))) :=
  ⟨rfl, other_tags_ignored nekoTagger ["5\tjpn\t猫が好き"] [] "" "6\teng\tI like cats"
    "6" "eng" "I like cats" (by decide) (by simp) (by decide) (by decide) (by decide)
    (by decide) (by decide)⟩

/-- C5 as stated fails on the code.  With line numbering, removing the line
`6<TAB>eng<TAB>I like cats` that stands before a `jpn` line changes the ids of the
index from 1 to 0.  Altering it into `6<TAB>eng`, whose tag is still not `jpn`, ends
the run without an index.  And a file with an `eng` line of 65536 bytes or more
delivers no index, while the file without that line does. -/
theorem removing_a_line_renumbers :
    run true nekoTagger "6\teng\tI like cats\n5\tjpn\t猫が好き" =
      .ok [("猫", [1]), ("が", [1])] ∧
    run true nekoTagger "5\tjpn\t猫が好き" = .ok [("猫", [0]), ("が", [0])] ∧
    run false nekoTagger "6\teng\tI like cats\n5\tjpn\t猫が好き" =
      .ok [("猫", [5]), ("が", [5])] ∧
    delivered (run false nekoTagger "6\teng\n5\tjpn\t猫が好き") = none ∧
    SplitN longEng '\t' 3 = ["6", "eng", String.mk (List.replicate 65536 'a')] ∧
    delivered (run false nekoTagger (fileOf [longEng, "5\tjpn\t猫が好き"] "")) = none ∧
    delivered (run true nekoTagger (fileOf [longEng, "5\tjpn\t猫が好き"] "")) = none ∧
    delivered (run false nekoTagger (fileOf ["5\tjpn\t猫が好き"] "")) =
      some [("猫", [5]), ("が", [5])] := by
  have hnl : ∀ l ∈ [longEng, "5\tjpn\t猫が好き"], '\n' ∉ l.data := by
    intro l hl
    rcases List.mem_cons.1 hl with h1 | h1
    · rw [h1]
      exact longLine_no_newline 65536
    · rw [List.mem_singleton.1 h1]
      decide
  have hlong : 65536 ≤ longEng.utf8ByteSize := by
    have hsize : longEng.utf8ByteSize = 65536 + 6 := longLine_size 65536
    omega
  have hmem : longEng ∈ [longEng, "5\tjpn\t猫が好き"] := List.mem_cons_self _ _
  have hemp : '\n' ∉ ("" : String).data := by decide
  refine ⟨rfl, rfl, rfl, rfl, SplitN_longLine 65536, ?_, ?_, rfl⟩
  · exact run_too_long false nekoTagger _ "" longEng hnl hemp hmem hlong
  · exact run_too_long true nekoTagger _ "" longEng hnl hemp hmem hlong

/-! ## The example of the specification -/

/-- The two-line input of the example. -/
def exampleInput : String := "5\tjpn\t猫が好き\n6\teng\tI like cats"

theorem Scanner_exampleInput :
    Scanner exampleInput = (["5\tjpn\t猫が好き", "6\teng\tI like cats"], none) := by
  decide

theorem process_lines_exampleInput (u : Bool) (tagger : String → List Node) :
    process_lines u tagger (scan_lines (Scanner exampleInput).1) =
      match wordsLoop (tagger "猫が好き") [] with
      | .error e => .error e
      | .ok words => .ok [⟨if u then 0 else 5, words⟩] := by
  have hscan : scan_lines (Scanner exampleInput).1 =
      [⟨1, "5\tjpn\t猫が好き"⟩, ⟨1 + 1, "6\teng\tI like cats"⟩] := by
    rw [Scanner_exampleInput]
    rfl
  have hcats : process_line u tagger ⟨1 + 1, "6\teng\tI like cats"⟩ = .ok none :=
    process_line_skip u tagger _ _ _ _ _ SplitN_cats (by decide)
  have hatoi : Atoi "5" = some 5 := by decide
  rw [hscan, process_lines, process_lines_cons_none u tagger _ _ hcats,
    process_line_fields u tagger 1 _ _ _ _ SplitN_neko]
  cases u with
  | true =>
    cases wordsLoop (tagger "猫が好き") [] <;> simp [process_lines]
  | false =>
    cases wordsLoop (tagger "猫が好き") [] <;> simp [process_lines, hatoi]

theorem run_exampleInput (u : Bool) (tagger : String → List Node) :
    run u tagger exampleInput =
      match wordsLoop (tagger "猫が好き") [] with
      | .error e => .error e
      | .ok words => .ok (create_lookup_table [⟨if u then 0 else 5, words⟩]) := by
  unfold run
  rw [process_lines_exampleInput, Scanner_exampleInput]
  cases wordsLoop (tagger "猫が好き") [] <;> rfl

theorem get_create_single (id : Int) (words : List String) (w : String) :
    (create_lookup_table [⟨id, words⟩]).get w =
      if words.count w = 0 then none else some (List.replicate (words.count w) id) := by
  rw [get_create]
  simp [occurrences, List.replicate_eq_nil_iff]

/-- C7, amended. For the two-line input of the example and any tagger, the `jpn`
record stands on line 1, so with line numbering its sentence has the id 0 and without
it the id 5; the `eng` line contributes nothing; every key of the index is a word of
that sentence and maps to as many copies of the id as the word has occurrences, that
is to `[0]` with line numbering and `[5]` without it when no word is repeated. -/
theorem example_both_modes (tagger : String → List Node) :
    Scanner exampleInput = (["5\tjpn\t猫が好き", "6\teng\tI like cats"], none) ∧
    (∀ u, process_line u tagger ⟨2, "6\teng\tI like cats"⟩ = .ok none) ∧
    (∀ words, wordsLoop (tagger "猫が好き") [] = .ok words →
      process_lines true tagger (scan_lines (Scanner exampleInput).1) =
        .ok [⟨0, words⟩] ∧
      process_lines false tagger (scan_lines (Scanner exampleInput).1) =
        .ok [⟨5, words⟩] ∧
      run true tagger exampleInput = .ok (create_lookup_table [⟨0, words⟩]) ∧
      run false tagger exampleInput = .ok (create_lookup_table [⟨5, words⟩]) ∧
      (∀ w, (create_lookup_table [⟨0, words⟩]).get w ≠ none ↔ w ∈ words) ∧
      (∀ w ∈ words, (create_lookup_table [⟨0, words⟩]).get w =
        some (List.replicate (words.count w) 0)) ∧
      (words.Nodup → ∀ w ∈ words,
        (create_lookup_table [⟨0, words⟩]).get w = some [0] ∧
        (create_lookup_table [⟨5, words⟩]).get w = some [5])) ∧
    (∀ t, run true tagger exampleInput = .ok t →
      ∀ w ids, t.get w = some ids → ∀ i ∈ ids, i = 0) := by
  refine ⟨Scanner_exampleInput, ?_, ?_, ?_⟩
  · intro u
    exact process_line_skip u tagger _ _ _ _ _ SplitN_cats (by decide)
  · intro words hw
    have hpos : ∀ w ∈ words, ¬ words.count w = 0 := by
      intro w hmem h0
      exact (List.count_eq_zero.1 h0) hmem
    refine ⟨?_, ?_, ?_, ?_, ?_, ?_, ?_⟩
    · rw [process_lines_exampleInput, hw]; rfl
    · rw [process_lines_exampleInput, hw]; rfl
    · rw [run_exampleInput, hw]; rfl
    · rw [run_exampleInput, hw]; rfl
    · intro w
      rw [get_create_single]
      by_cases h0 : words.count w = 0
      · simp [h0, List.count_eq_zero.1 h0]
      · have hmem : w ∈ words := by
          by_contra hn
          exact h0 (List.count_eq_zero.2 hn)
        simp [h0, hmem]
    · intro w hmem
      rw [get_create_single, if_neg (hpos w hmem)]
    · intro hnd w hmem
      have h1 : words.count w = 1 := List.count_eq_one_of_mem hnd hmem
      rw [get_create_single, get_create_single, h1]
      simp
  · intro t ht w ids hids i hi
    rw [run_exampleInput] at ht
    cases hw : wordsLoop (tagger "猫が好き") [] with
    | error e => rw [hw] at ht; cases ht
    | ok words =>
      rw [hw] at ht
      simp only [Except.ok.injEq, if_true] at ht
      rw [← ht, get_create_single] at hids
      by_cases h0 : words.count w = 0
      · simp [h0] at hids
      · simp only [h0, if_false, Option.some.injEq] at hids
        rw [← hids] at hi
        exact (List.mem_replicate.1 hi).2

/-- C7 as stated fails on the code: with line numbering the sentence of the `jpn`
record of the example has the id 0, not 4, and the words of the index map to `[0]`. -/
theorem example_line_numbering_id :
    process_lines true nekoTagger (scan_lines (Scanner exampleInput).1) =
      .ok [⟨0, ["猫", "が"]⟩] ∧
    run true nekoTagger exampleInput = .ok [("猫", [0]), ("が", [0])] ∧
    run false nekoTagger exampleInput = .ok [("猫", [5]), ("が", [5])] :=
  ⟨rfl, rfl, rfl⟩

end Tatoeba
